import Mathlib

/-!
Verification of the EigenDA dispersal pipeline core (batcher, finalizer,
encoder facade) against its natural-language specification.

The Go sources are shallowly embedded: machine integers (u8/u32/uint) become
`Nat` with explicit `% 2 ^ w` where the source truncates, Go maps become
functions, fallible calls become `Except`, and external collaborators
(eth client, blob store, encoder backend) become explicit parameters.
Retry loops are written with a structural fuel argument equal to the
source's constant retry bound so that every definition is executable.
-/

namespace EigenDA

/-- Blob lifecycle status (disperser blob metadata): the five states of the
per-blob state machine. -/
inductive BlobStatus where
  | Processing
  | Confirmed
  | Failed
  | InsufficientSignatures
  | Finalized
  deriving DecidableEq, Repr

/-- One entry of `BlobHeader.QuorumInfos` (core.BlobQuorumInfo): the security
parameters a blob requests of one quorum, plus the chunk length chosen for
that quorum.  Thresholds are u8 percentages. -/
structure BlobQuorumInfo where
  quorumID : Nat
  adversaryThreshold : Nat
  quorumThreshold : Nat
  chunkLength : Nat
  deriving DecidableEq, Repr

/-- Per-quorum result of signature aggregation (core.QuorumResult):
`percentSigned` is the stake percentage (u8) that signed. -/
structure QuorumResult where
  quorumID : Nat
  percentSigned : Nat
  deriving DecidableEq, Repr

/-- Blob header as used by the batcher's attestation check: only the quorum
info list is consulted by `isBlobAttested` / `numBlobsAttested`
(batcher.go 561-586). -/
structure BlobHeader where
  quorumInfos : List BlobQuorumInfo
  deriving DecidableEq, Repr

/-- Confirmation info persisted with a confirmed blob
(disperser.ConfirmationInfo, the fields the claims are about). -/
structure ConfirmationInfo where
  batchID : Nat
  blobIndex : Nat
  confirmationBlockNumber : Nat
  confirmationTxnHash : Nat
  deriving DecidableEq, Repr

/-- Blob metadata owned by the blob store (disperser.BlobMetadata):
status, retry counter and optional confirmation info. -/
structure BlobMetadata where
  status : BlobStatus
  numRetries : Nat
  confirmationInfo : Option ConfirmationInfo
  deriving DecidableEq, Repr

/-- Inner loop shared by `isBlobAttested` and `numBlobsAttested`
(batcher.go 563-569 and 580-584): scan the blob's quorums and fail as soon
as one quorum's `PercentSigned` is below its `QuorumThreshold`.  The Go map
`signedQuorums` is embedded as a total function (the aggregator returns a
result for every quorum of the batch). -/
def quorumsAttested (signedQuorums : Nat → QuorumResult) : List BlobQuorumInfo → Bool
  | [] => true
  | q :: rest =>
    if (signedQuorums q.quorumID).percentSigned < q.quorumThreshold then false
    else quorumsAttested signedQuorums rest

/-- isBlobAttested (batcher.go 579-586): a blob is attested when no quorum
listed in its header is below threshold. -/
def isBlobAttested (signedQuorums : Nat → QuorumResult) (header : BlobHeader) : Bool :=
  quorumsAttested signedQuorums header.quorumInfos

/-- numBlobsAttested (batcher.go 561-577): number of headers whose quorums
all reached their threshold. -/
def numBlobsAttested (signedQuorums : Nat → QuorumResult) : List BlobHeader → Nat
  | [] => 0
  | h :: rest =>
    (if isBlobAttested signedQuorums h then 1 else 0) + numBlobsAttested signedQuorums rest

/-- Per-blob status decision of updateConfirmationInfo (batcher.go 245-251):
start from `InsufficientSignatures`, upgrade to `Confirmed` when attested. -/
def confirmStatus (signedQuorums : Nat → QuorumResult) (header : BlobHeader) : BlobStatus :=
  if isBlobAttested signedQuorums header then .Confirmed else .InsufficientSignatures

/-- An ethereum event log (go-ethereum types.Log): topic hashes are
abstracted to numbers, `data` is the raw byte list of the event data. -/
structure EventLog where
  topics : List Nat
  data : List Nat
  deriving DecidableEq, Repr

/-- A transaction receipt (go-ethereum types.Receipt): its logs, an optional
block number (`nil` pointer in Go) and the transaction hash. -/
structure Receipt where
  logs : List EventLog
  blockNumber : Option Nat
  txHash : Nat
  deriving DecidableEq, Repr

/-- Stand-in for common.BatchConfirmedEventSigHash, the event signature hash
the batcher scans receipt logs for.  Only equality with it matters. -/
def batchConfirmedEventSigHash : Nat := 0xb9a7

/-- Big-endian byte-list to natural number. -/
def bytesToNatBE (bytes : List Nat) : Nat :=
  bytes.foldl (fun acc b => acc * 256 + b) 0

/-- ABI unpack of the BatchConfirmed event data (batcher.go 504-514): the
data field holds exactly one `uint32 batchId`, read big-endian from the last
4 bytes of the first 32-byte word; empty or short data fails to unpack. -/
def unpackBatchConfirmedData (data : List Nat) : Except Unit Nat :=
  if 32 ≤ data.length then .ok (bytesToNatBE ((data.take 32).drop 28)) else .error ()

/-- Log scan of parseBatchIDFromReceipt (batcher.go 488-517): skip logs with
no topics, unpack the first log whose topic 0 is the BatchConfirmed
signature hash (an unpack failure is returned immediately), error when no
log matches. -/
def findBatchConfirmedLog : List EventLog → Except Unit Nat
  | [] => .error ()
  | log :: rest =>
    if log.topics = [] then findBatchConfirmedLog rest
    else if log.topics.headD 0 = batchConfirmedEventSigHash then unpackBatchConfirmedData log.data
    else findBatchConfirmedLog rest

/-- parseBatchIDFromReceipt (batcher.go 484-518): a receipt with no logs is
an error, otherwise scan the logs for the BatchConfirmed event. -/
def parseBatchIDFromReceipt (r : Receipt) : Except Unit Nat :=
  if r.logs = [] then .error () else findBatchConfirmedLog r.logs

/-- Retry loop of getBatchID (batcher.go 536-550), fuel = remaining
attempts (**maxRetries = 4**), `i` = attempt counter.  Before attempt `i`
the batcher sleeps `2 ^ i` times the 1-second base delay; the slept delays
(in seconds) are accumulated in `delays`.  `fetch i` is the i-th
`ethClient.TransactionReceipt` call; a fetch error just continues the loop,
a fetched receipt that parses returns its batch id. -/
def getBatchIDRetryAux (fetch : Nat → Except Unit Receipt) :
    Nat → Nat → List Nat → Except Unit Nat × List Nat
  | 0, _, delays => (.error (), delays)
  | remaining + 1, i, delays =>
    let delays' := delays ++ [2 ^ i]
    match fetch i with
    | .error _ => getBatchIDRetryAux fetch remaining (i + 1) delays'
    | .ok r =>
      match parseBatchIDFromReceipt r with
      | .ok b => (.ok b, delays')
      | .error _ => getBatchIDRetryAux fetch remaining (i + 1) delays'

/-- getBatchID (batcher.go 520-558): parse the given receipt; on parse
failure re-fetch the receipt up to 4 times with exponential backoff
(base 1s, multiplier 2^i).  Returns the result together with the list of
backoff delays slept, in seconds. -/
def getBatchID (r0 : Receipt) (fetch : Nat → Except Unit Receipt) :
    Except Unit Nat × List Nat :=
  match parseBatchIDFromReceipt r0 with
  | .ok b => (.ok b, [])
  | .error _ => getBatchIDRetryAux fetch 4 0 []

/-- Per-blob loop body of updateConfirmationInfo (batcher.go 245-312),
carrying the running `blobIndex`: each blob gets the status chosen by
`isBlobAttested` and a ConfirmationInfo with the parsed batch id, its
index, the receipt's block number and txn hash. -/
def confirmEntries (signedQuorums : Nat → QuorumResult) (batchID bn txHash : Nat) :
    Nat → List BlobHeader → List (BlobStatus × ConfirmationInfo)
  | _, [] => []
  | blobIndex, h :: rest =>
    (confirmStatus signedQuorums h,
     { batchID := batchID, blobIndex := blobIndex,
       confirmationBlockNumber := bn, confirmationTxnHash := txHash }) ::
      confirmEntries signedQuorums batchID bn txHash (blobIndex + 1) rest

/-- updateConfirmationInfo (batcher.go 210-315) on the success path: a
receipt without block number is an error (line 215), a batch-id fetch
failure is an error (line 237), otherwise each blob of the batch is marked
by `confirmEntries`.  Store writes and Merkle-proof generation are external
effects whose failure reroutes individual blobs to retry; this model is
their success path, which is what "processed successfully" quantifies
over. -/
def updateConfirmationInfo (r0 : Receipt) (fetch : Nat → Except Unit Receipt)
    (signedQuorums : Nat → QuorumResult) (headers : List BlobHeader) :
    Except Unit (List (BlobStatus × ConfirmationInfo)) :=
  match r0.blockNumber with
  | none => .error ()
  | some bn =>
    match (getBatchID r0 fetch).1 with
    | .error e => .error e
    | .ok batchID =>
      .ok (confirmEntries signedQuorums batchID bn r0.txHash 0 headers)

/-- Modelled from the spec: BlobStore.HandleBlobFailure is not under src/
(only its callers and tests are).  Spec section 6: "HandleBlobFailure(meta,
maxRetries) (increments retries or marks Failed)"; the branch boundary is
pinned by TestBlobFailures (src/unnamed/part_000, 255-358): with
MaxNumRetriesPerBlob = 2 the first two failures leave the blob Processing
with numRetries 1 then 2, and the third marks it Failed with numRetries
still 2 — i.e. a blob still below the bound is retried (incrementing), a
blob at the bound is marked Failed unchanged. -/
def HandleBlobFailure (m : BlobMetadata) (maxNumRetriesPerBlob : Nat) : BlobMetadata :=
  if m.numRetries < maxNumRetriesPerBlob then
    { m with status := .Processing, numRetries := m.numRetries + 1 }
  else
    { m with status := .Failed }

/-- Effect of the batcher's failure handling on one blob: the metadata after
`HandleBlobFailure` plus the fact that its encoded chunks were removed from
the in-memory encoded store. -/
structure FailureEffect where
  newMeta : BlobMetadata
  encodedChunksRemoved : Bool
  deriving DecidableEq, Repr

/-- handleFailure (batcher.go 358-374): for every blob of the list, remove
its encoded chunks from the encoding streamer's store and run the store's
HandleBlobFailure with the configured MaxNumRetriesPerBlob. -/
def handleFailure (blobMetadatas : List BlobMetadata) (maxNumRetriesPerBlob : Nat) :
    List FailureEffect :=
  blobMetadatas.map (fun m =>
    { newMeta := HandleBlobFailure m maxNumRetriesPerBlob, encodedChunksRemoved := true })

/-- Outcome of one HandleSingleBatch iteration from signature aggregation
onwards: which blobs were routed through failure handling, whether a
confirmBatch transaction was built/submitted, and whether the iteration
returned an error. -/
structure SingleBatchOutcome where
  failureEffects : List FailureEffect
  confirmBatchTxnBuilt : Bool
  err : Bool
  deriving DecidableEq, Repr

/-- HandleSingleBatch (batcher.go 439-473) from the point where signature
aggregation has returned: when `numBlobsAttested` is zero the whole batch is
routed through `handleFailure` and the iteration errors before
BuildConfirmBatchTxn is reached; otherwise the confirmBatch transaction is
built and submitted. -/
def handleSingleBatchPostAggregation (signedQuorums : Nat → QuorumResult)
    (headers : List BlobHeader) (metas : List BlobMetadata)
    (maxNumRetriesPerBlob : Nat) : SingleBatchOutcome :=
  if numBlobsAttested signedQuorums headers = 0 then
    { failureEffects := handleFailure metas maxNumRetriesPerBlob,
      confirmBatchTxnBuilt := false, err := true }
  else
    { failureEffects := [], confirmBatchTxnBuilt := true, err := false }

/-- Error of a TransactionReceipt lookup in the finalizer: the transaction
is not found (ethereum.NotFound, i.e. reorged out) or some other RPC
error. -/
inductive TxLookupError where
  | notFound
  | other
  deriving DecidableEq, Repr

/-- Retry loop of the finalizer's getTransactionBlockNumber (finalizer
source in src/retriever/server_test.go, lines 277-304), fuel = remaining
attempts (**maxRetries = 3**): a NotFound error returns immediately, any
other error is retried with exponential backoff, success returns the
receipt's block number. -/
def getTxnBlockNumberRetryAux (responses : Nat → Except TxLookupError Nat) :
    Nat → Nat → Except TxLookupError Nat
  | 0, _ => .error .other
  | remaining + 1, i =>
    match responses i with
    | .ok bn => .ok bn
    | .error .notFound => .error .notFound
    | .error .other => getTxnBlockNumberRetryAux responses remaining (i + 1)

/-- getTransactionBlockNumber of the finalizer: up to 3 attempts. -/
def getTransactionBlockNumber (responses : Nat → Except TxLookupError Nat) :
    Except TxLookupError Nat :=
  getTxnBlockNumberRetryAux responses 3 0

/-- One iteration of finalizer.updateBlobs (finalizer source in
src/retriever/server_test.go, lines 224-275) for a single blob fetched from
the Confirmed page: returns the blob's metadata after the iteration.
A non-Confirmed blob is skipped; a blob whose confirmation block is past
the latest finalized block `lastFinalBlock` is left Confirmed; a NotFound
transaction lookup routes the blob through HandleBlobFailure; another
lookup error skips the blob; otherwise the blob is finalized when the
re-queried receipt block number is still final, with the confirmation block
number updated to the re-queried value. -/
def updateBlobsStep (m : BlobMetadata) (lastFinalBlock : Nat)
    (responses : Nat → Except TxLookupError Nat) (maxNumRetriesPerBlob : Nat) :
    BlobMetadata :=
  if m.status ≠ .Confirmed then m
  else
    match m.confirmationInfo with
    | none => m
    | some ci =>
      if lastFinalBlock < ci.confirmationBlockNumber then m
      else
        match getTransactionBlockNumber responses with
        | .error .notFound => HandleBlobFailure m maxNumRetriesPerBlob
        | .error .other => m
        | .ok bn =>
          if lastFinalBlock < bn then m
          else { m with status := .Finalized,
                        confirmationInfo := some { ci with confirmationBlockNumber := bn } }

/-- Modelled from the spec: BlobStore.MarkBlobConfirmed is not under src/
(only its caller in the batcher and TestBatcherIterations are).  Spec
section 6: "MarkBlobConfirmed(meta, ConfirmationInfo) → metadata
(idempotent: if already confirmed, returns the existing confirmation info
unchanged)". -/
def MarkBlobConfirmed (m : BlobMetadata) (ci : ConfirmationInfo) : BlobMetadata :=
  if m.status = .Confirmed then m
  else { m with status := .Confirmed, confirmationInfo := some ci }

/-- core.EncodingParams: chunk length and number of chunks, both u32/uint in
the source. -/
structure EncodingParams where
  chunkLength : Nat
  numChunks : Nat
  deriving DecidableEq, Repr

/-- The byte string hashBlob (encoder.go 210-215) feeds to SHA-256: the data
bytes followed by `byte(params.ChunkLength)` and `byte(params.NumChunks)` —
the Go `byte(·)` conversion keeps only the low 8 bits of each parameter. -/
def hashBlobInput (data : List Nat) (params : EncodingParams) : List Nat :=
  data ++ [params.chunkLength % 256, params.numChunks % 256]

/-- hashBlob (encoder.go 210-215) with the SHA-256 compression abstracted as
a function parameter: the cache key is the hash of `hashBlobInput`. -/
def hashBlob (sha256 : List Nat → List Nat) (data : List Nat)
    (params : EncodingParams) : List Nat :=
  sha256 (hashBlobInput data params)

/-- Lookup in the encoded-blob cache, keyed by the hashBlob string. -/
def cacheLookup {α : Type} (cache : List (List Nat × α)) (key : List Nat) : Option α :=
  match cache with
  | [] => none
  | (k, v) :: rest => if k = key then some v else cacheLookup rest key

/-- Encoder.Encode with CacheEncodedBlobs enabled (encoder.go 64-110):
compute the cache key with hashBlob, return the cached value on a hit, and
on a miss encode (`encodeRaw` abstracts the EncoderGroup backend) and add
the result under that key.  Returns the result and the updated cache. -/
def EncodeCached {α : Type} (sha256 : List Nat → List Nat)
    (encodeRaw : List Nat → EncodingParams → α)
    (cache : List (List Nat × α)) (data : List Nat) (params : EncodingParams) :
    α × List (List Nat × α) :=
  let key := hashBlob sha256 data params
  match cacheLookup cache key with
  | some v => (v, cache)
  | none => (encodeRaw data params, (key, encodeRaw data params) :: cache)

/-- Result of the i-th receipt re-fetch attempt in getBatchID: `some b` when
the fetch succeeds and its receipt parses to batch id `b`, `none` when the
fetch or the parse fails. -/
def attemptOk (fetch : Nat → Except Unit Receipt) (i : Nat) : Option Nat :=
  match fetch i with
  | .error _ => none
  | .ok r =>
    match parseBatchIDFromReceipt r with
    | .ok b => some b
    | .error _ => none

/-- Quorum results where every quorum signed with 100 percent of stake, as
in the batcher tests (all mock operators sign). -/
def testSQ : Nat → QuorumResult := fun q => { quorumID := q, percentSigned := 100 }

/-- The valid BatchConfirmed log data of TestBatcherIterations and
TestRetryTxnReceipt (src/unnamed/part_000, 174 and 490): two 32-byte words
encoding 3 and 0, so the batch id word decodes to 3. -/
def validLogData : List Nat :=
  List.replicate 31 0 ++ [3] ++ List.replicate 32 0

/-- The valid receipt of the batcher tests: one BatchConfirmed log with
`validLogData`, block number 123, txn hash 0x1234. -/
def validReceipt : Receipt :=
  { logs := [{ topics := [batchConfirmedEventSigHash, 0x1234], data := validLogData }],
    blockNumber := some 123, txHash := 0x1234 }

/-- The invalid receipt of TestRetryTxnReceipt (src/unnamed/part_000,
480-488): a BatchConfirmed log whose data field is empty, so the batch id
fails to unpack. -/
def invalidReceipt : Receipt :=
  { logs := [{ topics := [batchConfirmedEventSigHash, 0x1234], data := [] }],
    blockNumber := some 123, txHash := 0x1234 }

/-- The TransactionReceipt mock of TestRetryTxnReceipt: the first two
re-fetches return the invalid receipt, later ones the valid receipt. -/
def testFetch : Nat → Except Unit Receipt := fun i =>
  if i < 2 then .ok invalidReceipt else .ok validReceipt

/-- A blob header requesting quorum 0 with adversary threshold 80 and quorum
threshold 90, as in the retrieval-client test setup. -/
def testHeader : BlobHeader :=
  { quorumInfos := [{ quorumID := 0, adversaryThreshold := 80, quorumThreshold := 90,
                      chunkLength := 1 }] }

/-! ### Encoder model (C9)

The Reed-Solomon/KZG backend (encoding/rs, encoding/kzgrs) that
Encoder.Encode and Encoder.Decode (encoder.go 64-110 and 186-200) delegate
to is not under src/.  The definitions below are modelled from the spec,
section 4.4: Encode converts bytes to a field-element polynomial (one field
element per 31 bytes of input, padded), extends it by Reed-Solomon to
`numChunks * chunkLength` evaluations and groups them into `numChunks`
cosets; Decode interpolates the polynomial from any length-sized subset of
(index, coset) pairs and returns the first `maxInputSize` bytes.  KZG
commitments and proofs are orthogonal to the round-trip claim and are
omitted.  The evaluation domain is abstracted to the distinct field points
`i * chunkLength + k`, and bytes map to field elements little-endian (the
spec fixes no byte order).  The field is `ZMod p`; the intended modulus is
`bn254r`, and the development is parametric in `p` so that theorems apply
to any prime field. -/

/-- The BN254 scalar field modulus, the intended coefficient field of the
encoder ("field is BN254 scalar field", spec section 4.4). -/
def bn254r : Nat :=
  21888242871839275222246405745257275088548364400416034343698204186575808495617

/-- Little-endian byte-list to natural number. -/
def bytesToNatLE : List Nat → Nat
  | [] => 0
  | b :: rest => b + 256 * bytesToNatLE rest

/-- Natural number to a little-endian byte list of the given width. -/
def natToBytesLE : Nat → Nat → List Nat
  | 0, _ => []
  | k + 1, v => v % 256 :: natToBytesLE k (v / 256)

/-- Split a byte list into consecutive 31-byte groups; `fuel` bounds the
recursion and any value at least the list's length is exact. -/
def chunksOf31 : Nat → List Nat → List (List Nat)
  | 0, _ => []
  | _ + 1, [] => []
  | fuel + 1, b :: rest => (b :: rest).take 31 :: chunksOf31 fuel ((b :: rest).drop 31)

/-- Number of field elements representing the data: one per 31 bytes of
input, the last group zero-padded (commitments.Length in the source). -/
def blobLength (data : List Nat) : Nat := (data.length + 30) / 31

/-- The data zero-padded on the right to a whole number of 31-byte
groups. -/
def padTo31 (data : List Nat) : List Nat :=
  data ++ List.replicate (31 * blobLength data - data.length) 0

/-- ToFrArray: bytes to field elements, one element per 31-byte group. -/
def toFrArray (p : Nat) (data : List Nat) : List (ZMod p) :=
  (chunksOf31 (padTo31 data).length (padTo31 data)).map
    (fun c => (bytesToNatLE c : ZMod p))

/-- Evaluate a coefficient list (little-endian: index = degree) at `t` by
Horner's rule. -/
def polyEval {p : Nat} (coeffs : List (ZMod p)) (t : ZMod p) : ZMod p :=
  coeffs.foldr (fun a acc => a + t * acc) 0

/-- Coefficient-wise polynomial addition. -/
def polyAdd {p : Nat} : List (ZMod p) → List (ZMod p) → List (ZMod p)
  | [], q => q
  | q, [] => q
  | a :: q, b :: r => (a + b) :: polyAdd q r

/-- Scalar multiple of a coefficient list. -/
def polySmul {p : Nat} (c : ZMod p) (coeffs : List (ZMod p)) : List (ZMod p) :=
  coeffs.map (fun a => c * a)

/-- Multiply a coefficient list by the linear factor (X - c). -/
def polyMulXSub {p : Nat} (c : ZMod p) (coeffs : List (ZMod p)) : List (ZMod p) :=
  polyAdd (polySmul (-c) coeffs) (0 :: coeffs)

/-- The nodal polynomial of a node list: the product of (X - c) over its
entries. -/
def nodalPoly {p : Nat} : List (ZMod p) → List (ZMod p)
  | [] => [1]
  | c :: cs => polyMulXSub c (nodalPoly cs)

/-- The Lagrange term of the sample (x, y) against the other samples
`before ++ after`: y times the nodal polynomial of the other nodes,
normalized at x. -/
def lagrangeTermAt {p : Nat} (before after : List (ZMod p × ZMod p))
    (x y : ZMod p) : List (ZMod p) :=
  polySmul (y * ((((before ++ after).map Prod.fst).map (fun c => x - c)).prod)⁻¹)
    (nodalPoly ((before ++ after).map Prod.fst))

/-- Lagrange interpolation over the samples still in the second list, the
first list holding the samples already processed. -/
def interpAux {p : Nat} : List (ZMod p × ZMod p) → List (ZMod p × ZMod p) → List (ZMod p)
  | _, [] => []
  | before, s :: after =>
    polyAdd (lagrangeTermAt before after s.1 s.2) (interpAux (before ++ [s]) after)

/-- Lagrange interpolation: the coefficient list of the unique polynomial
of degree below the sample count passing through all samples. -/
def interp {p : Nat} (samples : List (ZMod p × ZMod p)) : List (ZMod p) :=
  interpAux [] samples

/-- The evaluation point of slot `k` of chunk `i`. -/
def encodeNode (p : Nat) (chunkLength i k : Nat) : ZMod p :=
  ((i * chunkLength + k : Nat) : ZMod p)

/-- Chunk `i` of the encoding: the message polynomial evaluated on coset
`i`, i.e. at the points `i * chunkLength + k` for `k < chunkLength`. -/
def encodeChunk (p : Nat) (msg : List (ZMod p)) (chunkLength i : Nat) : List (ZMod p) :=
  (List.range chunkLength).map (fun k => polyEval msg (encodeNode p chunkLength i k))

/-- Modelled from the spec: Encoder.Encode's Reed-Solomon extension (spec
section 4.4) — the data becomes a field-element polynomial whose
evaluations are grouped into `numChunks` chunks of `chunkLength` points. -/
def Encode (p : Nat) (data : List Nat) (params : EncodingParams) : List (List (ZMod p)) :=
  (List.range params.numChunks).map
    (fun i => encodeChunk p (toFrArray p data) params.chunkLength i)

/-- The (point, value) samples contributed by one received chunk, tagged
with its chunk index. -/
def chunkSamples (p : Nat) (chunkLength idx : Nat) (chunk : List (ZMod p)) :
    List (ZMod p × ZMod p) :=
  (List.zip (List.range chunkLength) chunk).map
    (fun q => (encodeNode p chunkLength idx q.1, q.2))

/-- The samples of all received chunks, paired positionally with their
chunk indices (Decode's `chunks`/`indices` arguments). -/
def samplesOf (p : Nat) (chunkLength : Nat) :
    List Nat → List (List (ZMod p)) → List (ZMod p × ZMod p)
  | [], _ => []
  | _, [] => []
  | i :: irest, c :: crest =>
    chunkSamples p chunkLength i c ++ samplesOf p chunkLength irest crest

/-- Modelled from the spec: Encoder.Decode (spec section 4.4) —
interpolate the polynomial from the received (index, coset) pairs,
serialize its coefficients back to bytes and return the first
`maxInputSize` bytes. -/
def Decode (p : Nat) (chunks : List (List (ZMod p))) (indices : List Nat)
    (params : EncodingParams) (maxInputSize : Nat) : List Nat :=
  (((interp (samplesOf p params.chunkLength indices chunks)).map
      (fun x => natToBytesLE 31 x.val)).flatten).take maxInputSize

/-- Coefficient list to a Mathlib polynomial, for stating degree bounds and
uniqueness; proof apparatus only. -/
noncomputable def toPoly {p : Nat} : List (ZMod p) → Polynomial (ZMod p)
  | [] => 0
  | a :: rest => Polynomial.C a + toPoly rest * Polynomial.X

/-- The evaluation points contributed by the given chunk indices, at the
level of natural numbers; proof apparatus for distinctness. -/
def natNodes (chunkLength : Nat) (indices : List Nat) : List Nat :=
  (indices.map (fun i => (List.range chunkLength).map (fun k => i * chunkLength + k))).flatten

/-! ### Theorems -/

/-- The attestation loop succeeds exactly when every listed quorum reached
its threshold. -/
theorem quorumsAttested_eq_true_iff (sq : Nat → QuorumResult) (l : List BlobQuorumInfo) :
    quorumsAttested sq l = true ↔
      ∀ q ∈ l, q.quorumThreshold ≤ (sq q.quorumID).percentSigned := by
  induction l with
  | nil => simp [quorumsAttested]
  | cons q rest ih =>
    by_cases hq : (sq q.quorumID).percentSigned < q.quorumThreshold
    · rw [quorumsAttested, if_pos hq]
      simp only [Bool.false_eq_true, false_iff]
      intro hall
      exact absurd (hall q (List.mem_cons_self q rest)) (not_le.mpr hq)
    · rw [quorumsAttested, if_neg hq, ih, List.forall_mem_cons]
      simp [not_lt.mp hq]

/-- Fetching the k-th entry produced by the confirmation loop. -/
theorem confirmEntries_getElem? (sq : Nat → QuorumResult) (batchID bn txHash : Nat) :
    ∀ (headers : List BlobHeader) (idx k : Nat) (h : BlobHeader),
      headers[k]? = some h →
      (confirmEntries sq batchID bn txHash idx headers)[k]? =
        some (confirmStatus sq h,
          { batchID := batchID, blobIndex := idx + k,
            confirmationBlockNumber := bn, confirmationTxnHash := txHash }) := by
  intro headers
  induction headers with
  | nil => intro idx k h hk; simp at hk
  | cons h0 rest ih =>
    intro idx k h hk
    match k with
    | 0 =>
      simp only [List.getElem?_cons_zero, Option.some.injEq] at hk
      subst hk
      simp [confirmEntries]
    | k + 1 =>
      simp only [List.getElem?_cons_succ] at hk
      have := ih (idx + 1) k h hk
      simpa [confirmEntries, Nat.add_assoc, Nat.add_comm 1 k] using this

/-- C1: for every batch whose confirmation receipt is processed
successfully, each blob's status is Confirmed if and only if every quorum
listed in that blob's header has PercentSigned at or above its
QuorumThreshold in the aggregation's quorum results, and otherwise the
status is InsufficientSignatures. -/
theorem C1_confirmed_iff_quorums_reached
    (r0 : Receipt) (fetch : Nat → Except Unit Receipt) (sq : Nat → QuorumResult)
    (headers : List BlobHeader) (results : List (BlobStatus × ConfirmationInfo))
    (k : Nat) (h : BlobHeader) (st : BlobStatus) (ci : ConfirmationInfo)
    (hres : updateConfirmationInfo r0 fetch sq headers = .ok results)
    (hh : headers[k]? = some h) (hr : results[k]? = some (st, ci)) :
    (st = .Confirmed ↔
      ∀ q ∈ h.quorumInfos, q.quorumThreshold ≤ (sq q.quorumID).percentSigned) ∧
    (st = .InsufficientSignatures ↔
      ¬ ∀ q ∈ h.quorumInfos, q.quorumThreshold ≤ (sq q.quorumID).percentSigned) := by
  unfold updateConfirmationInfo at hres
  cases hbn : r0.blockNumber with
  | none => rw [hbn] at hres; exact absurd hres (by simp)
  | some bn =>
    rw [hbn] at hres
    cases hb : (getBatchID r0 fetch).1 with
    | error e => rw [hb] at hres; exact absurd hres (by simp)
    | ok batchID =>
      rw [hb] at hres
      simp only [Except.ok.injEq] at hres
      subst hres
      rw [confirmEntries_getElem? sq batchID bn r0.txHash headers 0 k h hh] at hr
      simp only [Option.some.injEq, Prod.mk.injEq] at hr
      obtain ⟨hst, -⟩ := hr
      subst hst
      unfold confirmStatus isBlobAttested
      by_cases hatt : quorumsAttested sq h.quorumInfos = true
      · have hall := (quorumsAttested_eq_true_iff sq h.quorumInfos).mp hatt
        rw [if_pos hatt]
        exact ⟨iff_of_true rfl hall,
          iff_of_false (fun hx => BlobStatus.noConfusion hx) (not_not_intro hall)⟩
      · have hnall := fun hall =>
          hatt ((quorumsAttested_eq_true_iff sq h.quorumInfos).mpr hall)
        rw [if_neg hatt]
        exact ⟨iff_of_false (fun hx => BlobStatus.noConfusion hx) hnall,
          iff_of_true rfl hnall⟩

/-- Witness for C1 at the TestBatcherIterations scenario: the valid receipt
with batch id 3, all quorums fully signed, one blob on quorum 0 with
threshold 90. -/
theorem C1_confirmed_iff_quorums_reached_witness :
    ((BlobStatus.Confirmed = .Confirmed) ↔
      ∀ q ∈ testHeader.quorumInfos, q.quorumThreshold ≤ (testSQ q.quorumID).percentSigned) ∧
    ((BlobStatus.Confirmed = .InsufficientSignatures) ↔
      ¬ ∀ q ∈ testHeader.quorumInfos, q.quorumThreshold ≤ (testSQ q.quorumID).percentSigned) :=
  C1_confirmed_iff_quorums_reached validReceipt (fun _ => .error ()) testSQ
    [testHeader] [(.Confirmed, ⟨3, 0, 123, 0x1234⟩)]
    0 testHeader .Confirmed ⟨3, 0, 123, 0x1234⟩
    rfl rfl rfl

/-- C10: a blob whose header lists no quorums is vacuously attested: for
every quorum-result map it passes `isBlobAttested`, is counted by
`numBlobsAttested`, and its per-blob status in confirmation processing is
Confirmed regardless of any signatures. -/
theorem C10_empty_quorums_vacuously_attested (sq : Nat → QuorumResult)
    (h : BlobHeader) (rest : List BlobHeader) (hempty : h.quorumInfos = []) :
    isBlobAttested sq h = true ∧ confirmStatus sq h = .Confirmed ∧
    numBlobsAttested sq (h :: rest) = numBlobsAttested sq rest + 1 := by
  have hatt : isBlobAttested sq h = true := by
    unfold isBlobAttested
    rw [hempty]
    rfl
  refine ⟨hatt, ?_, ?_⟩
  · unfold confirmStatus
    rw [if_pos hatt]
  · rw [numBlobsAttested, if_pos hatt, Nat.add_comm]

/-- Witness for C10: the empty-quorum header with a quorum-result map where
nobody signed. -/
theorem C10_empty_quorums_vacuously_attested_witness :
    isBlobAttested (fun q => { quorumID := q, percentSigned := 0 }) { quorumInfos := [] } = true ∧
    confirmStatus (fun q => { quorumID := q, percentSigned := 0 }) { quorumInfos := [] } = .Confirmed ∧
    numBlobsAttested (fun q => { quorumID := q, percentSigned := 0 }) [{ quorumInfos := [] }] =
      numBlobsAttested (fun q => { quorumID := q, percentSigned := 0 }) [] + 1 :=
  C10_empty_quorums_vacuously_attested (fun q => { quorumID := q, percentSigned := 0 })
    { quorumInfos := [] } [] rfl

/-- When no header is attested the attested count is zero. -/
theorem numBlobsAttested_eq_zero (sq : Nat → QuorumResult) (headers : List BlobHeader)
    (hall : ∀ h ∈ headers, isBlobAttested sq h = false) :
    numBlobsAttested sq headers = 0 := by
  induction headers with
  | nil => rfl
  | cons h rest ih =>
    rw [numBlobsAttested, hall h (List.mem_cons_self h rest)]
    simpa using ih (fun h' hh' => hall h' (List.mem_cons_of_mem h hh'))

/-- C5: if after signature aggregation no blob has all of its quorums at or
above their QuorumThreshold, every blob of the batch goes through failure
handling (with its encoded chunks removed), HandleSingleBatch returns an
error, and no confirmBatch transaction is built or submitted. -/
theorem C5_no_attested_blob_fails_batch (sq : Nat → QuorumResult)
    (headers : List BlobHeader) (metas : List BlobMetadata) (maxR : Nat)
    (hnone : ∀ h ∈ headers,
      ¬ ∀ q ∈ h.quorumInfos, q.quorumThreshold ≤ (sq q.quorumID).percentSigned) :
    handleSingleBatchPostAggregation sq headers metas maxR =
      { failureEffects := handleFailure metas maxR,
        confirmBatchTxnBuilt := false, err := true } ∧
    (handleSingleBatchPostAggregation sq headers metas maxR).failureEffects.length =
      metas.length ∧
    ∀ e ∈ (handleSingleBatchPostAggregation sq headers metas maxR).failureEffects,
      e.encodedChunksRemoved = true := by
  have hfalse : ∀ h ∈ headers, isBlobAttested sq h = false := by
    intro h hh
    have := hnone h hh
    unfold isBlobAttested
    rcases Bool.eq_false_or_eq_true (quorumsAttested sq h.quorumInfos) with hf | ht
    · exact absurd ((quorumsAttested_eq_true_iff sq h.quorumInfos).mp hf) this
    · exact ht
  have hzero := numBlobsAttested_eq_zero sq headers hfalse
  have houtcome : handleSingleBatchPostAggregation sq headers metas maxR =
      { failureEffects := handleFailure metas maxR,
        confirmBatchTxnBuilt := false, err := true } := by
    unfold handleSingleBatchPostAggregation
    rw [if_pos hzero]
  refine ⟨houtcome, ?_, ?_⟩
  · rw [houtcome]
    exact List.length_map metas _
  · rw [houtcome]
    intro e he
    obtain ⟨m, -, hme⟩ := List.mem_map.mp he
    rw [← hme]

/-- Witness for C5: one blob on quorum 0 with threshold 90 while only 50
percent signed. -/
theorem C5_no_attested_blob_fails_batch_witness :
    handleSingleBatchPostAggregation (fun q => { quorumID := q, percentSigned := 50 })
      [testHeader] [{ status := .Processing, numRetries := 0, confirmationInfo := none }] 2 =
      { failureEffects := handleFailure
          [{ status := .Processing, numRetries := 0, confirmationInfo := none }] 2,
        confirmBatchTxnBuilt := false, err := true } ∧
    (handleSingleBatchPostAggregation (fun q => { quorumID := q, percentSigned := 50 })
      [testHeader] [{ status := .Processing, numRetries := 0, confirmationInfo := none }] 2).failureEffects.length = 1 ∧
    ∀ e ∈ (handleSingleBatchPostAggregation (fun q => { quorumID := q, percentSigned := 50 })
      [testHeader] [{ status := .Processing, numRetries := 0, confirmationInfo := none }] 2).failureEffects,
      e.encodedChunksRemoved = true :=
  C5_no_attested_blob_fails_batch (fun q => { quorumID := q, percentSigned := 50 })
    [testHeader] [{ status := .Processing, numRetries := 0, confirmationInfo := none }] 2
    (by decide)

/-- The modelled blob-store failure handling reproduces the TestBlobFailures
trace (src/unnamed/part_000, 296-357): with MaxNumRetriesPerBlob = 2 three
successive failures give Processing with numRetries 1, Processing with
numRetries 2, and finally Failed with numRetries still 2. -/
theorem HandleBlobFailure_matches_TestBlobFailures :
    HandleBlobFailure ⟨.Processing, 0, none⟩ 2 = ⟨.Processing, 1, none⟩ ∧
    HandleBlobFailure ⟨.Processing, 1, none⟩ 2 = ⟨.Processing, 2, none⟩ ∧
    HandleBlobFailure ⟨.Processing, 2, none⟩ 2 = ⟨.Failed, 2, none⟩ := by
  decide

/-- C4 counterexample: a blob with numRetries = 1 under
MaxNumRetriesPerBlob = 2 has its counter incremented to 2, which reaches
the bound, yet handleFailure reverts it to Processing instead of setting it
Failed as the claim requires (TestBlobFailures asserts exactly this:
Processing with numRetries = 2 after the second failure). -/
theorem C4_counterexample :
    handleFailure [⟨.Processing, 1, none⟩] 2 = [⟨⟨.Processing, 2, none⟩, true⟩] ∧
    2 ≤ (HandleBlobFailure ⟨.Processing, 1, none⟩ 2).numRetries ∧
    ¬ (HandleBlobFailure ⟨.Processing, 1, none⟩ 2).status = .Failed := by
  decide

/-- C4 (amended): handleFailure removes every blob's encoded chunks and
runs retry accounting: a blob with numRetries strictly below
MaxNumRetriesPerBlob has its counter incremented and reverts to
Processing; a blob whose numRetries has already reached the bound is set
Failed with the counter unchanged. -/
theorem C4_handleFailure_retry_accounting
    (metas : List BlobMetadata) (maxR k : Nat) (m : BlobMetadata)
    (hm : metas[k]? = some m) :
    ∃ e, (handleFailure metas maxR)[k]? = some e ∧
      e.encodedChunksRemoved = true ∧
      (m.numRetries < maxR →
        e.newMeta.status = .Processing ∧ e.newMeta.numRetries = m.numRetries + 1) ∧
      (maxR ≤ m.numRetries →
        e.newMeta.status = .Failed ∧ e.newMeta.numRetries = m.numRetries) := by
  refine ⟨⟨HandleBlobFailure m maxR, true⟩, ?_, rfl, ?_, ?_⟩
  · unfold handleFailure
    rw [List.getElem?_map, hm]
    rfl
  · intro hlt
    unfold HandleBlobFailure
    rw [if_pos hlt]
    exact ⟨rfl, rfl⟩
  · intro hge
    unfold HandleBlobFailure
    rw [if_neg (not_lt.mpr hge)]
    exact ⟨rfl, rfl⟩

/-- Witness for C4 (amended) at the TestBlobFailures scenario: a single
blob with numRetries = 1 and MaxNumRetriesPerBlob = 2. -/
theorem C4_handleFailure_retry_accounting_witness :
    ∃ e, (handleFailure [⟨.Processing, 1, none⟩] 2)[0]? = some e ∧
      e.encodedChunksRemoved = true ∧
      (1 < 2 →
        e.newMeta.status = .Processing ∧ e.newMeta.numRetries = 1 + 1) ∧
      (2 ≤ 1 →
        e.newMeta.status = .Failed ∧ e.newMeta.numRetries = 1) :=
  C4_handleFailure_retry_accounting [⟨.Processing, 1, none⟩] 2 0
    ⟨.Processing, 1, none⟩ rfl

/-- C2 counterexample: a Confirmed blob with confirmation block 100 and
numRetries = 0, latest finalized block 200, whose confirmation transaction
is not found: the finalizer reverts it to Processing through retry
accounting instead of transitioning it to Failed as the claim states. -/
theorem C2_counterexample :
    (updateBlobsStep ⟨.Confirmed, 0, some ⟨5, 0, 100, 7⟩⟩ 200
        (fun _ => .error .notFound) 2).status = .Processing ∧
    ¬ (updateBlobsStep ⟨.Confirmed, 0, some ⟨5, 0, 100, 7⟩⟩ 200
        (fun _ => .error .notFound) 2).status = .Failed := by
  decide

/-- C2 (amended): for every Confirmed blob whose recorded confirmation
block number is at or below the latest finalized block, if the confirmation
transaction is no longer found on chain the finalizer routes the blob
through the blob store's failure handling: it becomes Failed when its
numRetries has already reached MaxNumRetriesPerBlob and otherwise reverts
to Processing with numRetries incremented. -/
theorem C2_reorged_confirmation_retry_accounting
    (m : BlobMetadata) (ci : ConfirmationInfo) (L maxR : Nat)
    (responses : Nat → Except TxLookupError Nat)
    (hst : m.status = .Confirmed) (hci : m.confirmationInfo = some ci)
    (hfin : ci.confirmationBlockNumber ≤ L)
    (hnf : getTransactionBlockNumber responses = .error .notFound) :
    updateBlobsStep m L responses maxR = HandleBlobFailure m maxR ∧
    (m.numRetries < maxR →
      (updateBlobsStep m L responses maxR).status = .Processing ∧
      (updateBlobsStep m L responses maxR).numRetries = m.numRetries + 1) ∧
    (maxR ≤ m.numRetries →
      (updateBlobsStep m L responses maxR).status = .Failed ∧
      (updateBlobsStep m L responses maxR).numRetries = m.numRetries) := by
  have hstep : updateBlobsStep m L responses maxR = HandleBlobFailure m maxR := by
    unfold updateBlobsStep
    rw [if_neg (by rw [hst]; exact fun hx => hx rfl), hci]
    dsimp only
    rw [if_neg (not_lt.mpr hfin), hnf]
  refine ⟨hstep, ?_, ?_⟩
  · intro hlt
    rw [hstep]
    unfold HandleBlobFailure
    rw [if_pos hlt]
    exact ⟨rfl, rfl⟩
  · intro hge
    rw [hstep]
    unfold HandleBlobFailure
    rw [if_neg (not_lt.mpr hge)]
    exact ⟨rfl, rfl⟩

/-- Witness for C2 (amended) at the S7 scenario: Confirmed at block 100,
finality at 200, transaction not found, fresh retry counter. -/
theorem C2_reorged_confirmation_retry_accounting_witness :
    updateBlobsStep ⟨.Confirmed, 0, some ⟨5, 0, 100, 7⟩⟩ 200
        (fun _ => .error .notFound) 2 =
      HandleBlobFailure ⟨.Confirmed, 0, some ⟨5, 0, 100, 7⟩⟩ 2 ∧
    (0 < 2 →
      (updateBlobsStep ⟨.Confirmed, 0, some ⟨5, 0, 100, 7⟩⟩ 200
          (fun _ => .error .notFound) 2).status = .Processing ∧
      (updateBlobsStep ⟨.Confirmed, 0, some ⟨5, 0, 100, 7⟩⟩ 200
          (fun _ => .error .notFound) 2).numRetries = 0 + 1) ∧
    (2 ≤ 0 →
      (updateBlobsStep ⟨.Confirmed, 0, some ⟨5, 0, 100, 7⟩⟩ 200
          (fun _ => .error .notFound) 2).status = .Failed ∧
      (updateBlobsStep ⟨.Confirmed, 0, some ⟨5, 0, 100, 7⟩⟩ 200
          (fun _ => .error .notFound) 2).numRetries = 0) :=
  C2_reorged_confirmation_retry_accounting ⟨.Confirmed, 0, some ⟨5, 0, 100, 7⟩⟩
    ⟨5, 0, 100, 7⟩ 200 2 (fun _ => .error .notFound) rfl rfl (by decide) rfl

/-- C7: for every Confirmed blob whose confirmation block number is at or
below the latest finalized block L and whose confirmation transaction is
still found, the finalizer sets the blob Finalized when the re-queried
receipt's block number is still at most L, and leaves it Confirmed when
that block number is now above L. -/
theorem C7_finalizer_promotes_or_leaves
    (m : BlobMetadata) (ci : ConfirmationInfo) (L maxR bn : Nat)
    (responses : Nat → Except TxLookupError Nat)
    (hst : m.status = .Confirmed) (hci : m.confirmationInfo = some ci)
    (hfin : ci.confirmationBlockNumber ≤ L)
    (hok : getTransactionBlockNumber responses = .ok bn) :
    (bn ≤ L → (updateBlobsStep m L responses maxR).status = .Finalized) ∧
    (L < bn → updateBlobsStep m L responses maxR = m ∧
      (updateBlobsStep m L responses maxR).status = .Confirmed) := by
  have hunfold : updateBlobsStep m L responses maxR =
      if L < bn then m
      else { m with status := .Finalized,
                    confirmationInfo := some { ci with confirmationBlockNumber := bn } } := by
    unfold updateBlobsStep
    rw [if_neg (by rw [hst]; exact fun hx => hx rfl), hci]
    dsimp only
    rw [if_neg (not_lt.mpr hfin), hok]
  constructor
  · intro hle
    rw [hunfold, if_neg (not_lt.mpr hle)]
  · intro hgt
    rw [hunfold, if_pos hgt]
    exact ⟨rfl, hst⟩

/-- Witness for C7: Confirmed at block 100, finality at 200, re-queried
receipt still at block 150. -/
theorem C7_finalizer_promotes_or_leaves_witness :
    (150 ≤ 200 →
      (updateBlobsStep ⟨.Confirmed, 0, some ⟨5, 0, 100, 7⟩⟩ 200
          (fun _ => .ok 150) 2).status = .Finalized) ∧
    (200 < 150 →
      updateBlobsStep ⟨.Confirmed, 0, some ⟨5, 0, 100, 7⟩⟩ 200
          (fun _ => .ok 150) 2 = ⟨.Confirmed, 0, some ⟨5, 0, 100, 7⟩⟩ ∧
      (updateBlobsStep ⟨.Confirmed, 0, some ⟨5, 0, 100, 7⟩⟩ 200
          (fun _ => .ok 150) 2).status = .Confirmed) :=
  C7_finalizer_promotes_or_leaves ⟨.Confirmed, 0, some ⟨5, 0, 100, 7⟩⟩
    ⟨5, 0, 100, 7⟩ 200 2 150 (fun _ => .ok 150) rfl rfl (by decide) rfl

/-- C8: MarkBlobConfirmed is idempotent: on a blob already in status
Confirmed, another call with any (different) ConfirmationInfo returns the
metadata unchanged — it still carries the originally stored confirmation
info and status Confirmed. -/
theorem C8_MarkBlobConfirmed_idempotent (m : BlobMetadata) (ci : ConfirmationInfo)
    (hst : m.status = .Confirmed) :
    MarkBlobConfirmed m ci = m ∧
    (MarkBlobConfirmed m ci).confirmationInfo = m.confirmationInfo ∧
    (MarkBlobConfirmed m ci).status = .Confirmed := by
  unfold MarkBlobConfirmed
  rw [if_pos hst]
  exact ⟨rfl, rfl, hst⟩

/-- Witness for C8 at the TestBatcherIterations scenario: the confirmed
blob keeps its stored info (blob index 0) when re-confirmed with a
different info (blob index 1). -/
theorem C8_MarkBlobConfirmed_idempotent_witness :
    MarkBlobConfirmed ⟨.Confirmed, 0, some ⟨3, 0, 123, 0x1234⟩⟩ ⟨3, 1, 123, 0x1234⟩ =
      ⟨.Confirmed, 0, some ⟨3, 0, 123, 0x1234⟩⟩ ∧
    (MarkBlobConfirmed ⟨.Confirmed, 0, some ⟨3, 0, 123, 0x1234⟩⟩
        ⟨3, 1, 123, 0x1234⟩).confirmationInfo = some ⟨3, 0, 123, 0x1234⟩ ∧
    (MarkBlobConfirmed ⟨.Confirmed, 0, some ⟨3, 0, 123, 0x1234⟩⟩
        ⟨3, 1, 123, 0x1234⟩).status = .Confirmed :=
  C8_MarkBlobConfirmed_idempotent ⟨.Confirmed, 0, some ⟨3, 0, 123, 0x1234⟩⟩
    ⟨3, 1, 123, 0x1234⟩ rfl

/-- C3: the Encode cache key hashes only the low byte of ChunkLength and
NumChunks, so two Encode calls with the same data and different full
parameter values share one cache key, and the second call returns the
value cached for the first call's parameters — contradicting the claim
that keys coincide only when the full values coincide. -/
theorem C3_cache_key_uses_truncated_params :
    hashBlobInput [] ⟨1, 257⟩ = hashBlobInput [] ⟨1, 1⟩ ∧
    (⟨1, 257⟩ : EncodingParams) ≠ ⟨1, 1⟩ ∧
    ∀ {α : Type} (sha256 : List Nat → List Nat)
      (encodeRaw : List Nat → EncodingParams → α),
      (EncodeCached sha256 encodeRaw
          (EncodeCached sha256 encodeRaw [] [] ⟨1, 257⟩).2 [] ⟨1, 1⟩).1 =
        encodeRaw [] ⟨1, 257⟩ := by
  refine ⟨by decide, by decide, ?_⟩
  intro α sha256 encodeRaw
  simp [EncodeCached, hashBlob, hashBlobInput, cacheLookup]

/-- Shifting the backoff-delay schedule by one attempt. -/
theorem range_pow_shift (i : Nat) :
    ∀ d, (List.range (d + 1)).map (fun j => 2 ^ (i + j)) =
      2 ^ i :: (List.range d).map (fun j => 2 ^ (i + 1 + j)) := by
  intro d
  induction d with
  | zero => simp [List.range_succ]
  | succ d ih =>
    rw [List.range_succ, List.map_append, ih, List.range_succ, List.map_append]
    simp [List.cons_append, show i + (d + 1) = i + 1 + d by omega]

/-- The getBatchID retry loop succeeds at the first succeeding attempt,
having slept the exponential backoff schedule up to that attempt. -/
theorem getBatchIDRetryAux_ok (fetch : Nat → Except Unit Receipt) :
    ∀ (remaining i d b : Nat) (delays : List Nat),
      d < remaining →
      (∀ j, j < d → attemptOk fetch (i + j) = none) →
      attemptOk fetch (i + d) = some b →
      getBatchIDRetryAux fetch remaining i delays =
        (.ok b, delays ++ (List.range (d + 1)).map (fun j => 2 ^ (i + j))) := by
  intro remaining
  induction remaining with
  | zero => intro i d b delays hd; omega
  | succ r ih =>
    intro i d b delays hd hfail hok
    match d with
    | 0 =>
      rw [Nat.add_zero] at hok
      cases hf : fetch i with
      | error e => simp [attemptOk, hf] at hok
      | ok rc =>
        cases hp : parseBatchIDFromReceipt rc with
        | error e => simp [attemptOk, hf, hp] at hok
        | ok b' =>
          have hb : b' = b := by simpa [attemptOk, hf, hp] using hok
          subst hb
          simp [getBatchIDRetryAux, hf, hp, List.range_succ]
    | d' + 1 =>
      have h0 : attemptOk fetch (i + 0) = none := hfail 0 (Nat.succ_pos d')
      rw [Nat.add_zero] at h0
      have hfail' : ∀ j, j < d' → attemptOk fetch (i + 1 + j) = none := by
        intro j hj
        have := hfail (j + 1) (by omega)
        rwa [show i + (j + 1) = i + 1 + j by omega] at this
      have hok' : attemptOk fetch (i + 1 + d') = some b := by
        rwa [show i + (d' + 1) = i + 1 + d' by omega] at hok
      have hrec := ih (i + 1) d' b (delays ++ [2 ^ i]) (by omega) hfail' hok'
      have hsched : delays ++ (List.range (d' + 1 + 1)).map (fun j => 2 ^ (i + j)) =
          delays ++ [2 ^ i] ++ (List.range (d' + 1)).map (fun j => 2 ^ (i + 1 + j)) := by
        rw [range_pow_shift i (d' + 1), List.append_assoc]
        rfl
      cases hf : fetch i with
      | error e =>
        rw [hsched]
        simpa [getBatchIDRetryAux, hf] using hrec
      | ok rc =>
        cases hp : parseBatchIDFromReceipt rc with
        | ok b0 => simp [attemptOk, hf, hp] at h0
        | error e =>
          rw [hsched]
          simpa [getBatchIDRetryAux, hf, hp] using hrec

/-- The getBatchID retry loop fails after exhausting all attempts, having
slept the full exponential backoff schedule. -/
theorem getBatchIDRetryAux_fail (fetch : Nat → Except Unit Receipt) :
    ∀ (remaining i : Nat) (delays : List Nat),
      (∀ j, j < remaining → attemptOk fetch (i + j) = none) →
      getBatchIDRetryAux fetch remaining i delays =
        (.error (), delays ++ (List.range remaining).map (fun j => 2 ^ (i + j))) := by
  intro remaining
  induction remaining with
  | zero => intro i delays hall; simp [getBatchIDRetryAux]
  | succ r ih =>
    intro i delays hall
    have h0 : attemptOk fetch (i + 0) = none := hall 0 (Nat.succ_pos r)
    rw [Nat.add_zero] at h0
    have hall' : ∀ j, j < r → attemptOk fetch (i + 1 + j) = none := by
      intro j hj
      have := hall (j + 1) (by omega)
      rwa [show i + (j + 1) = i + 1 + j by omega] at this
    have hrec := ih (i + 1) (delays ++ [2 ^ i]) hall'
    have hsched : delays ++ (List.range (r + 1)).map (fun j => 2 ^ (i + j)) =
        delays ++ [2 ^ i] ++ (List.range r).map (fun j => 2 ^ (i + 1 + j)) := by
      rw [range_pow_shift i r, List.append_assoc]
      rfl
    cases hf : fetch i with
    | error e =>
      rw [hsched]
      simpa [getBatchIDRetryAux, hf] using hrec
    | ok rc =>
      cases hp : parseBatchIDFromReceipt rc with
      | ok b0 => simp [attemptOk, hf, hp] at h0
      | error e =>
        rw [hsched]
        simpa [getBatchIDRetryAux, hf, hp] using hrec

/-- C6: when parsing the BatchConfirmed log from the given receipt fails,
getBatchID re-fetches the receipt up to 4 times with exponential backoff
(delays 2^0, 2^1, ... seconds over the 1-second base), succeeding as soon
as a re-fetched receipt parses (so it fails only after exhausting all 4
retries, having slept 1, 2, 4, 8 seconds), and a success with batch id `b`
lets confirmation processing mark an attested blob Confirmed with
BatchID `b`. -/
theorem C6_getBatchID_retry_with_backoff
    (r0 : Receipt) (fetch : Nat → Except Unit Receipt)
    (hp0 : parseBatchIDFromReceipt r0 = .error ()) :
    (∀ i b, i < 4 → (∀ j, j < i → attemptOk fetch j = none) →
      attemptOk fetch i = some b →
      getBatchID r0 fetch = (.ok b, (List.range (i + 1)).map (fun j => 2 ^ j))) ∧
    ((∀ j, j < 4 → attemptOk fetch j = none) →
      getBatchID r0 fetch = (.error (), [1, 2, 4, 8])) ∧
    (∀ i b bn sq h, i < 4 → (∀ j, j < i → attemptOk fetch j = none) →
      attemptOk fetch i = some b → r0.blockNumber = some bn →
      isBlobAttested sq h = true →
      updateConfirmationInfo r0 fetch sq [h] =
        .ok [(.Confirmed, ⟨b, 0, bn, r0.txHash⟩)]) := by
  have hok : ∀ i b, i < 4 → (∀ j, j < i → attemptOk fetch j = none) →
      attemptOk fetch i = some b →
      getBatchID r0 fetch = (.ok b, (List.range (i + 1)).map (fun j => 2 ^ j)) := by
    intro i b hi hfail hatt
    unfold getBatchID
    rw [hp0]
    have := getBatchIDRetryAux_ok fetch 4 0 i b [] hi
      (by intro j hj; rw [Nat.zero_add]; exact hfail j hj)
      (by rw [Nat.zero_add]; exact hatt)
    simpa [Nat.zero_add] using this
  refine ⟨hok, ?_, ?_⟩
  · intro hall
    unfold getBatchID
    rw [hp0]
    have := getBatchIDRetryAux_fail fetch 4 0 []
      (by intro j hj; rw [Nat.zero_add]; exact hall j hj)
    simpa [Nat.zero_add] using this
  · intro i b bn sq h hi hfail hatt hbn hblob
    unfold updateConfirmationInfo
    rw [hbn, hok i b hi hfail hatt]
    dsimp only
    unfold confirmEntries confirmEntries confirmStatus
    rw [if_pos hblob]

/-- Witness for C6 at the TestRetryTxnReceipt scenario: the initial receipt
has empty log data, the first two re-fetches return it again, the third
returns the valid receipt with batch id 3; getBatchID succeeds with batch
id 3 after backoff delays 1, 2, 4 seconds and the blob is Confirmed with
BatchID 3. -/
theorem C6_getBatchID_retry_with_backoff_witness :
    getBatchID invalidReceipt testFetch = (.ok 3, [1, 2, 4]) ∧
    updateConfirmationInfo invalidReceipt testFetch testSQ [testHeader] =
      .ok [(.Confirmed, ⟨3, 0, 123, 0x1234⟩)] := by
  have hthm := C6_getBatchID_retry_with_backoff invalidReceipt testFetch rfl
  have hfail : ∀ j, j < 2 → attemptOk testFetch j = none := by
    intro j hj
    match j with
    | 0 => rfl
    | 1 => rfl
  constructor
  · have h1 := hthm.1 2 3 (by omega) hfail rfl
    rwa [show (List.range (2 + 1)).map (fun j => 2 ^ j) = [1, 2, 4] from rfl] at h1
  · exact hthm.2.2 2 3 123 testSQ testHeader (by omega) hfail rfl rfl rfl

/-! ### C9 lemma chain: Horner evaluation algebra -/

theorem polyEval_cons {p : Nat} (a : ZMod p) (q : List (ZMod p)) (t : ZMod p) :
    polyEval (a :: q) t = a + t * polyEval q t := rfl

theorem polyEval_polyAdd {p : Nat} :
    ∀ (q r : List (ZMod p)) (t : ZMod p),
      polyEval (polyAdd q r) t = polyEval q t + polyEval r t := by
  intro q
  induction q with
  | nil => intro r t; simp [polyAdd, polyEval]
  | cons a q ih =>
    intro r t
    cases r with
    | nil => simp [polyAdd, polyEval]
    | cons b r =>
      show (a + b) + t * polyEval (polyAdd q r) t = (a + t * polyEval q t) + (b + t * polyEval r t)
      rw [ih]
      ring

theorem polyEval_polySmul {p : Nat} (c : ZMod p) :
    ∀ (q : List (ZMod p)) (t : ZMod p), polyEval (polySmul c q) t = c * polyEval q t := by
  intro q
  induction q with
  | nil => intro t; simp [polySmul, polyEval]
  | cons a q ih =>
    intro t
    show c * a + t * polyEval (polySmul c q) t = c * (a + t * polyEval q t)
    rw [ih]
    ring

theorem polyEval_polyMulXSub {p : Nat} (c : ZMod p) (q : List (ZMod p)) (t : ZMod p) :
    polyEval (polyMulXSub c q) t = (t - c) * polyEval q t := by
  unfold polyMulXSub
  rw [polyEval_polyAdd, polyEval_polySmul, polyEval_cons]
  ring

theorem polyEval_nodalPoly {p : Nat} :
    ∀ (cs : List (ZMod p)) (t : ZMod p),
      polyEval (nodalPoly cs) t = (cs.map (fun c => t - c)).prod := by
  intro cs
  induction cs with
  | nil =>
    intro t
    show (1 : ZMod p) + t * 0 = 1
    ring
  | cons c cs ih =>
    intro t
    rw [nodalPoly, polyEval_polyMulXSub, ih, List.map_cons, List.prod_cons]

theorem length_polyAdd {p : Nat} :
    ∀ (q r : List (ZMod p)), (polyAdd q r).length = max q.length r.length := by
  intro q
  induction q with
  | nil => intro r; simp [polyAdd]
  | cons a q ih =>
    intro r
    cases r with
    | nil => simp [polyAdd]
    | cons b r =>
      show (polyAdd q r).length + 1 = max (q.length + 1) (r.length + 1)
      rw [ih]
      omega

theorem length_polySmul {p : Nat} (c : ZMod p) (q : List (ZMod p)) :
    (polySmul c q).length = q.length :=
  List.length_map q _

theorem length_polyMulXSub {p : Nat} (c : ZMod p) (q : List (ZMod p)) :
    (polyMulXSub c q).length = q.length + 1 := by
  unfold polyMulXSub
  rw [length_polyAdd, length_polySmul, List.length_cons]
  omega

theorem length_nodalPoly {p : Nat} :
    ∀ (cs : List (ZMod p)), (nodalPoly cs).length = cs.length + 1 := by
  intro cs
  induction cs with
  | nil => rfl
  | cons c cs ih => rw [nodalPoly, length_polyMulXSub, ih, List.length_cons]

theorem length_lagrangeTermAt {p : Nat} (before after : List (ZMod p × ZMod p))
    (x y : ZMod p) :
    (lagrangeTermAt before after x y).length = (before ++ after).length + 1 := by
  unfold lagrangeTermAt
  rw [length_polySmul, length_nodalPoly, List.length_map]

theorem length_interpAux {p : Nat} :
    ∀ (after before : List (ZMod p × ZMod p)), after ≠ [] →
      (interpAux before after).length = before.length + after.length := by
  intro after
  induction after with
  | nil => intro before h; exact absurd rfl h
  | cons s after ih =>
    intro before _
    rw [interpAux, length_polyAdd, length_lagrangeTermAt]
    cases after with
    | nil => simp [interpAux]
    | cons s2 a2 =>
      rw [ih (before ++ [s]) (by simp)]
      simp [List.length_append]
      omega

/-! ### C9 lemma chain: interpolation evaluation -/

theorem polyEval_interpAux_mem_before {p : Nat} :
    ∀ (after before : List (ZMod p × ZMod p)) (x : ZMod p),
      x ∈ before.map Prod.fst → polyEval (interpAux before after) x = 0 := by
  intro after
  induction after with
  | nil => intro before x _; rfl
  | cons s after ih =>
    intro before x hx
    rw [interpAux, polyEval_polyAdd]
    have hterm : polyEval (lagrangeTermAt before after s.1 s.2) x = 0 := by
      unfold lagrangeTermAt
      rw [polyEval_polySmul, polyEval_nodalPoly]
      have hmem : x ∈ (before ++ after).map Prod.fst := by
        rw [List.map_append]
        exact List.mem_append_left _ hx
      rw [List.prod_eq_zero (List.mem_map.mpr ⟨x, hmem, sub_self x⟩)]
      ring
    have hrest : polyEval (interpAux (before ++ [s]) after) x = 0 := by
      apply ih (before ++ [s]) x
      rw [List.map_append]
      exact List.mem_append_left _ hx
    rw [hterm, hrest, add_zero]

theorem polyEval_interpAux_mem_after {p : Nat} [Fact p.Prime] :
    ∀ (after before : List (ZMod p × ZMod p)),
      ((before ++ after).map Prod.fst).Nodup →
      ∀ s ∈ after, polyEval (interpAux before after) s.1 = s.2 := by
  intro after
  induction after with
  | nil => intro before _ s hs; cases hs
  | cons hd after ih =>
    intro before hnd s hs
    rw [interpAux, polyEval_polyAdd]
    rcases List.mem_cons.mp hs with rfl | hs'
    · have hrest : polyEval (interpAux (before ++ [s]) after) s.1 = 0 := by
        apply polyEval_interpAux_mem_before
        rw [List.map_append]
        exact List.mem_append_right _ (by simp)
      rw [hrest, add_zero]
      unfold lagrangeTermAt
      rw [polyEval_polySmul, polyEval_nodalPoly]
      have hnot : s.1 ∉ (before ++ after).map Prod.fst := by
        rw [List.map_append] at hnd ⊢
        rw [List.map_cons] at hnd
        obtain ⟨-, hnd2, hdisj⟩ := List.nodup_append.mp hnd
        intro hx
        rcases List.mem_append.mp hx with hb | ha
        · exact hdisj hb (List.mem_cons_self _ _)
        · exact (List.nodup_cons.mp hnd2).1 ha
      have hprod : (((before ++ after).map Prod.fst).map (fun c => s.1 - c)).prod ≠ 0 := by
        apply List.prod_ne_zero
        intro h0
        obtain ⟨c, hc, hc0⟩ := List.mem_map.mp h0
        exact hnot (by rw [sub_eq_zero.mp hc0]; exact hc)
      rw [mul_assoc, inv_mul_cancel₀ hprod, mul_one]
    · have hterm : polyEval (lagrangeTermAt before after hd.1 hd.2) s.1 = 0 := by
        unfold lagrangeTermAt
        rw [polyEval_polySmul, polyEval_nodalPoly]
        have hmem : s.1 ∈ (before ++ after).map Prod.fst := by
          rw [List.map_append]
          exact List.mem_append_right _ (List.mem_map_of_mem _ hs')
        rw [List.prod_eq_zero (List.mem_map.mpr ⟨s.1, hmem, sub_self _⟩)]
        ring
      rw [hterm, zero_add]
      apply ih (before ++ [hd]) _ s hs'
      rw [List.append_assoc]
      simpa using hnd

/-! ### C9 lemma chain: bridge to Mathlib polynomials -/

theorem eval_toPoly {p : Nat} :
    ∀ (l : List (ZMod p)) (t : ZMod p), (toPoly l).eval t = polyEval l t := by
  intro l
  induction l with
  | nil => intro t; simp [toPoly, polyEval]
  | cons a l ih =>
    intro t
    rw [toPoly, polyEval_cons, Polynomial.eval_add, Polynomial.eval_C, Polynomial.eval_mul,
      Polynomial.eval_X, ih]
    ring

theorem coeff_toPoly {p : Nat} :
    ∀ (l : List (ZMod p)) (k : Nat), (toPoly l).coeff k = l.getD k 0 := by
  intro l
  induction l with
  | nil => intro k; simp [toPoly]
  | cons a l ih =>
    intro k
    cases k with
    | zero =>
      rw [toPoly, Polynomial.coeff_add, Polynomial.coeff_C_zero, Polynomial.coeff_mul_X_zero,
        add_zero, List.getD_cons_zero]
    | succ k =>
      rw [toPoly, Polynomial.coeff_add, Polynomial.coeff_mul_X, ih, List.getD_cons_succ,
        Polynomial.coeff_C, if_neg (Nat.succ_ne_zero k), zero_add]

theorem degree_toPoly_lt {p : Nat} (l : List (ZMod p)) :
    (toPoly l).degree < (l.length : WithBot Nat) := by
  rw [Polynomial.degree_lt_iff_coeff_zero]
  intro m hm
  rw [coeff_toPoly]
  exact List.getD_eq_default _ _ hm

theorem interp_length_le {p : Nat} (samples : List (ZMod p × ZMod p)) :
    (interp samples).length ≤ samples.length := by
  cases samples with
  | nil => simp [interp, interpAux]
  | cons s rest =>
    rw [interp, length_interpAux (s :: rest) [] (by simp)]
    simp

/-- Uniqueness of interpolation: when the samples lie on the polynomial of
the coefficient list `msg`, whose length the sample count reaches, the
interpolated coefficients agree with `msg` everywhere. -/
theorem interp_getD_eq {p : Nat} [Fact p.Prime]
    (samples : List (ZMod p × ZMod p)) (msg : List (ZMod p))
    (hnd : (samples.map Prod.fst).Nodup)
    (hvals : ∀ s ∈ samples, s.2 = polyEval msg s.1)
    (hlen : msg.length ≤ samples.length) :
    ∀ k, (interp samples).getD k 0 = msg.getD k 0 := by
  have hcard : (samples.map Prod.fst).toFinset.card = samples.length := by
    rw [List.toFinset_card_of_nodup hnd, List.length_map]
  have hpoly : toPoly (interp samples) = toPoly msg := by
    apply Polynomial.eq_of_degrees_lt_of_eval_finset_eq ((samples.map Prod.fst).toFinset)
    · rw [hcard]
      exact lt_of_lt_of_le (degree_toPoly_lt _) (by exact_mod_cast interp_length_le samples)
    · rw [hcard]
      exact lt_of_lt_of_le (degree_toPoly_lt _) (by exact_mod_cast hlen)
    · intro x hx
      obtain ⟨s, hs, hsx⟩ := List.mem_map.mp (List.mem_toFinset.mp hx)
      subst hsx
      rw [eval_toPoly, eval_toPoly,
        show polyEval (interp samples) s.1 = s.2 from
          polyEval_interpAux_mem_after samples [] (by simpa using hnd) s hs]
      exact hvals s hs
  intro k
  rw [← coeff_toPoly (interp samples) k, ← coeff_toPoly msg k, hpoly]

/-! ### C9 lemma chain: bytes and 31-byte groups -/

theorem length_natToBytesLE : ∀ (k v : Nat), (natToBytesLE k v).length = k := by
  intro k
  induction k with
  | zero => intro v; rfl
  | succ k ih => intro v; rw [natToBytesLE, List.length_cons, ih]

theorem natToBytesLE_bytesToNatLE :
    ∀ (c : List Nat), (∀ b ∈ c, b < 256) → natToBytesLE c.length (bytesToNatLE c) = c := by
  intro c
  induction c with
  | nil => intro _; rfl
  | cons b rest ih =>
    intro h
    rw [bytesToNatLE, List.length_cons, natToBytesLE]
    have hb : b < 256 := h b (by simp)
    have h1 : (b + 256 * bytesToNatLE rest) % 256 = b := by omega
    have h2 : (b + 256 * bytesToNatLE rest) / 256 = bytesToNatLE rest := by omega
    rw [h1, h2, ih (fun x hx => h x (by simp [hx]))]

theorem chunksOf31_flatten :
    ∀ (fuel : Nat) (l : List Nat), l.length ≤ fuel → (chunksOf31 fuel l).flatten = l := by
  intro fuel
  induction fuel with
  | zero =>
    intro l hl
    cases l with
    | nil => rfl
    | cons b rest => simp at hl
  | succ fuel ih =>
    intro l hl
    cases l with
    | nil => rfl
    | cons b rest =>
      rw [chunksOf31, List.flatten_cons, ih ((b :: rest).drop 31) (by
        rw [List.length_drop]
        simp only [List.length_cons] at hl ⊢
        omega)]
      exact List.take_append_drop 31 (b :: rest)

theorem chunksOf31_length_mul :
    ∀ (fuel m : Nat) (l : List Nat), l.length = 31 * m → l.length ≤ fuel →
      (chunksOf31 fuel l).length = m := by
  intro fuel
  induction fuel with
  | zero =>
    intro m l hm hl
    cases l with
    | nil => simp at hm; simp [chunksOf31]; omega
    | cons b rest => simp at hl
  | succ fuel ih =>
    intro m l hm hl
    cases l with
    | nil => simp at hm; simp [chunksOf31]; omega
    | cons b rest =>
      rw [chunksOf31, List.length_cons]
      have hm1 : 1 ≤ m := by
        by_contra hc
        simp only [List.length_cons] at hm
        omega
      rw [ih (m - 1) ((b :: rest).drop 31) (by
          rw [List.length_drop]
          simp only [List.length_cons] at hm ⊢
          omega)
        (by
          rw [List.length_drop]
          simp only [List.length_cons] at hl ⊢
          omega)]
      omega

theorem chunksOf31_mem_length :
    ∀ (fuel m : Nat) (l : List Nat), l.length = 31 * m → l.length ≤ fuel →
      ∀ c ∈ chunksOf31 fuel l, c.length = 31 := by
  intro fuel
  induction fuel with
  | zero =>
    intro m l hm hl c hc
    cases l with
    | nil => simp [chunksOf31] at hc
    | cons b rest => simp at hl
  | succ fuel ih =>
    intro m l hm hl c hc
    cases l with
    | nil => simp [chunksOf31] at hc
    | cons b rest =>
      rw [chunksOf31] at hc
      have hm1 : 1 ≤ m := by
        by_contra hc2
        simp only [List.length_cons] at hm
        omega
      have h31 : 31 ≤ (b :: rest).length := by
        simp only [List.length_cons] at hm ⊢
        have : 31 * 1 ≤ 31 * m := Nat.mul_le_mul_left 31 hm1
        omega
      rcases List.mem_cons.mp hc with rfl | hc'
      · rw [List.length_take]
        omega
      · exact ih (m - 1) ((b :: rest).drop 31) (by
            rw [List.length_drop]
            simp only [List.length_cons] at hm ⊢
            omega)
          (by
            rw [List.length_drop]
            simp only [List.length_cons] at hl ⊢
            omega) c hc'

theorem chunksOf31_mem_bytes :
    ∀ (fuel : Nat) (l : List Nat), (∀ b ∈ l, b < 256) →
      ∀ c ∈ chunksOf31 fuel l, ∀ b ∈ c, b < 256 := by
  intro fuel
  induction fuel with
  | zero =>
    intro l hl c hc
    cases l with
    | nil => simp [chunksOf31] at hc
    | cons x rest => simp [chunksOf31] at hc
  | succ fuel ih =>
    intro l hl c hc
    cases l with
    | nil => simp [chunksOf31] at hc
    | cons x rest =>
      rw [chunksOf31] at hc
      rcases List.mem_cons.mp hc with rfl | hc'
      · exact fun b hb => hl b (List.take_subset 31 (x :: rest) hb)
      · exact ih ((x :: rest).drop 31)
          (fun b hb => hl b (List.drop_subset 31 (x :: rest) hb)) c hc'

theorem le_31_blobLength (data : List Nat) : data.length ≤ 31 * blobLength data := by
  unfold blobLength
  omega

theorem padTo31_length (data : List Nat) :
    (padTo31 data).length = 31 * blobLength data := by
  unfold padTo31
  rw [List.length_append, List.length_replicate]
  have := le_31_blobLength data
  omega

theorem padTo31_bytes (data : List Nat) (hbytes : ∀ b ∈ data, b < 256) :
    ∀ b ∈ padTo31 data, b < 256 := by
  intro b hb
  unfold padTo31 at hb
  rcases List.mem_append.mp hb with h | h
  · exact hbytes b h
  · rw [List.eq_of_mem_replicate h]
    omega

theorem toFrArray_length (p : Nat) (data : List Nat) :
    (toFrArray p data).length = blobLength data := by
  unfold toFrArray
  rw [List.length_map]
  exact chunksOf31_length_mul _ (blobLength data) _ (padTo31_length data)
    (le_of_eq rfl)

/-- Serializing the field elements of the data back to bytes recovers the
padded data. -/
theorem flatten_toFrArray_bytes (p : Nat) (data : List Nat)
    (hbytes : ∀ b ∈ data, b < 256)
    (hsmall : ∀ c ∈ chunksOf31 (padTo31 data).length (padTo31 data), bytesToNatLE c < p) :
    ((toFrArray p data).map (fun x => natToBytesLE 31 x.val)).flatten = padTo31 data := by
  unfold toFrArray
  rw [List.map_map]
  have hcongr : ∀ c ∈ chunksOf31 (padTo31 data).length (padTo31 data),
      ((fun x : ZMod p => natToBytesLE 31 x.val) ∘
        (fun c => ((bytesToNatLE c : Nat) : ZMod p))) c = id c := by
    intro c hc
    show natToBytesLE 31 ((bytesToNatLE c : Nat) : ZMod p).val = c
    rw [ZMod.val_natCast_of_lt (hsmall c hc)]
    have hlen : c.length = 31 :=
      chunksOf31_mem_length _ (blobLength data) _ (padTo31_length data) (le_of_eq rfl) c hc
    have hb : ∀ b ∈ c, b < 256 :=
      chunksOf31_mem_bytes _ (padTo31 data) (padTo31_bytes data hbytes) c hc
    rw [← hlen]
    exact natToBytesLE_bytesToNatLE c hb
  rw [List.map_congr_left hcongr, List.map_id]
  exact chunksOf31_flatten _ _ (le_of_eq rfl)

/-! ### C9 lemma chain: the sample set of a chunk subset -/

theorem node_inj (cl i j k k' : Nat) (hk : k < cl) (hk' : k' < cl)
    (heq : i * cl + k = j * cl + k') : i = j ∧ k = k' := by
  rcases Nat.lt_trichotomy i j with h | h | h
  · exfalso
    have hmul : i * cl + cl ≤ j * cl := by
      have h2 : (i + 1) * cl ≤ j * cl := Nat.mul_le_mul_right cl h
      rwa [Nat.succ_mul] at h2
    generalize i * cl = A at heq hmul
    generalize j * cl = B at heq hmul
    omega
  · subst h
    generalize i * cl = A at heq
    exact ⟨rfl, by omega⟩
  · exfalso
    have hmul : j * cl + cl ≤ i * cl := by
      have h2 : (j + 1) * cl ≤ i * cl := Nat.mul_le_mul_right cl h
      rwa [Nat.succ_mul] at h2
    generalize i * cl = A at heq hmul
    generalize j * cl = B at heq hmul
    omega

theorem node_lt (cl nc i k : Nat) (hi : i < nc) (hk : k < cl) :
    i * cl + k < nc * cl := by
  have h2 : (i + 1) * cl ≤ nc * cl := Nat.mul_le_mul_right cl hi
  rw [Nat.succ_mul] at h2
  generalize i * cl = A at h2 ⊢
  generalize nc * cl = B at h2 ⊢
  omega

theorem zip_self_map {α β : Type} (g : α → β) :
    ∀ (l : List α), List.zip l (l.map g) = l.map (fun a => (a, g a)) := by
  intro l
  induction l with
  | nil => rfl
  | cons a l ih => rw [List.map_cons, List.zip_cons_cons, ih, List.map_cons]

theorem chunkSamples_encodeChunk (p : Nat) (msg : List (ZMod p)) (cl i : Nat) :
    chunkSamples p cl i (encodeChunk p msg cl i) =
      (List.range cl).map
        (fun k => (encodeNode p cl i k, polyEval msg (encodeNode p cl i k))) := by
  unfold chunkSamples encodeChunk
  rw [zip_self_map, List.map_map]
  rfl

theorem Encode_getD (p : Nat) (data : List Nat) (params : EncodingParams) (i : Nat)
    (hi : i < params.numChunks) :
    (Encode p data params).getD i [] =
      encodeChunk p (toFrArray p data) params.chunkLength i := by
  unfold Encode
  rw [List.getD_eq_getElem?_getD, List.getElem?_map, List.getElem?_range hi]
  rfl

theorem samplesOf_encode_cons (p : Nat) (msg : List (ZMod p)) (cl i : Nat)
    (rest : List Nat) :
    samplesOf p cl (i :: rest) ((i :: rest).map (fun j => encodeChunk p msg cl j)) =
      chunkSamples p cl i (encodeChunk p msg cl i) ++
        samplesOf p cl rest (rest.map (fun j => encodeChunk p msg cl j)) := rfl

theorem samplesOf_encode_values (p : Nat) (msg : List (ZMod p)) (cl : Nat) :
    ∀ (indices : List Nat),
      ∀ s ∈ samplesOf p cl indices (indices.map (fun j => encodeChunk p msg cl j)),
        s.2 = polyEval msg s.1 := by
  intro indices
  induction indices with
  | nil => intro s hs; simp [samplesOf] at hs
  | cons i rest ih =>
    intro s hs
    rw [samplesOf_encode_cons] at hs
    rcases List.mem_append.mp hs with h | h
    · rw [chunkSamples_encodeChunk] at h
      obtain ⟨k, hk, rfl⟩ := List.mem_map.mp h
      rfl
    · exact ih s h

theorem samplesOf_encode_length (p : Nat) (msg : List (ZMod p)) (cl : Nat) :
    ∀ (indices : List Nat),
      (samplesOf p cl indices (indices.map (fun j => encodeChunk p msg cl j))).length =
        indices.length * cl := by
  intro indices
  induction indices with
  | nil => simp [samplesOf]
  | cons i rest ih =>
    rw [samplesOf_encode_cons, List.length_append, ih, chunkSamples_encodeChunk,
      List.length_map, List.length_range, List.length_cons]
    ring

theorem samplesOf_encode_fst (p : Nat) (msg : List (ZMod p)) (cl : Nat) :
    ∀ (indices : List Nat),
      (samplesOf p cl indices
          (indices.map (fun j => encodeChunk p msg cl j))).map Prod.fst =
        (natNodes cl indices).map (fun v => ((v : Nat) : ZMod p)) := by
  intro indices
  induction indices with
  | nil => simp [samplesOf, natNodes]
  | cons i rest ih =>
    rw [samplesOf_encode_cons, List.map_append, ih, chunkSamples_encodeChunk]
    unfold natNodes
    rw [List.map_cons, List.flatten_cons, List.map_append, List.map_map, List.map_map]
    rfl

theorem natNodes_nodup (cl : Nat) (indices : List Nat) (hnd : indices.Nodup) :
    (natNodes cl indices).Nodup := by
  unfold natNodes
  rw [List.nodup_flatten]
  constructor
  · intro l hl
    obtain ⟨i, hi, rfl⟩ := List.mem_map.mp hl
    exact List.Nodup.map (fun a b hab => by omega) (List.nodup_range cl)
  · rw [List.pairwise_map]
    apply List.Pairwise.imp ?_ hnd
    intro a b hab v hva hvb
    obtain ⟨k, hk, rfl⟩ := List.mem_map.mp hva
    obtain ⟨k', hk', heq⟩ := List.mem_map.mp hvb
    exact hab (node_inj cl a b k k' (List.mem_range.mp hk) (List.mem_range.mp hk') heq.symm).1

theorem natNodes_lt (cl nc : Nat) (indices : List Nat)
    (hbound : ∀ i ∈ indices, i < nc) :
    ∀ v ∈ natNodes cl indices, v < nc * cl := by
  intro v hv
  unfold natNodes at hv
  obtain ⟨l, hl, hvl⟩ := List.mem_flatten.mp hv
  obtain ⟨i, hi, rfl⟩ := List.mem_map.mp hl
  obtain ⟨k, hk, rfl⟩ := List.mem_map.mp hvl
  exact node_lt cl nc i k (hbound i hi) (List.mem_range.mp hk)

theorem samplesOf_encode_fst_nodup (p : Nat) (msg : List (ZMod p)) (cl nc : Nat)
    (indices : List Nat) (hnd : indices.Nodup)
    (hbound : ∀ i ∈ indices, i < nc) (hp : nc * cl ≤ p) :
    ((samplesOf p cl indices
        (indices.map (fun j => encodeChunk p msg cl j))).map Prod.fst).Nodup := by
  rw [samplesOf_encode_fst]
  apply List.Nodup.map_on ?_ (natNodes_nodup cl indices hnd)
  intro v1 h1 v2 h2 hcast
  have hv1 := lt_of_lt_of_le (natNodes_lt cl nc indices hbound v1 h1) hp
  have hv2 := lt_of_lt_of_le (natNodes_lt cl nc indices hbound v2 h2) hp
  have hval : ((v1 : Nat) : ZMod p).val = ((v2 : Nat) : ZMod p).val := by rw [hcast]
  rwa [ZMod.val_natCast_of_lt hv1, ZMod.val_natCast_of_lt hv2] at hval

/-- C9: encode/decode round-trip.  For every data whose bytes fit the
field (31-byte groups below the modulus) and whose encoding parameters fit
the evaluation domain, decoding any length-sized subset of the chunks
produced by Encode — given as any duplicate-free list of in-range chunk
indices whose size is the blob length (the number of field elements of the
data, commitments.Length in the source) — with maxInputSize = len(data)
returns the original data exactly. -/
theorem C9_encode_decode_roundtrip (p : Nat) [Fact p.Prime]
    (data : List Nat) (params : EncodingParams) (indices : List Nat)
    (hbytes : ∀ b ∈ data, b < 256)
    (hsmall : ∀ c ∈ chunksOf31 (padTo31 data).length (padTo31 data), bytesToNatLE c < p)
    (hcl : 1 ≤ params.chunkLength)
    (hdomain : params.numChunks * params.chunkLength ≤ p)
    (hnd : indices.Nodup)
    (hbound : ∀ i ∈ indices, i < params.numChunks)
    (hlen : indices.length = (toFrArray p data).length) :
    Decode p (indices.map (fun i => (Encode p data params).getD i []))
      indices params data.length = data := by
  set msg := toFrArray p data with hmsg
  set cl := params.chunkLength with hclDef
  have hchunks : indices.map (fun i => (Encode p data params).getD i []) =
      indices.map (fun j => encodeChunk p msg cl j) :=
    List.map_congr_left (fun i hi => Encode_getD p data params i (hbound i hi))
  unfold Decode
  rw [hchunks]
  set samples := samplesOf p cl indices (indices.map (fun j => encodeChunk p msg cl j))
    with hsamp
  have hndfst := samplesOf_encode_fst_nodup p msg cl params.numChunks indices hnd
    hbound hdomain
  have hvals := samplesOf_encode_values p msg cl indices
  have hslen : samples.length = indices.length * cl :=
    samplesOf_encode_length p msg cl indices
  have hmlen : msg.length ≤ samples.length := by
    rw [hslen, ← hlen]
    exact Nat.le_mul_of_pos_right indices.length (by omega)
  have hcoeff := interp_getD_eq samples msg hndfst hvals hmlen
  have htake : (interp samples).take msg.length = msg := by
    apply List.ext_getElem?
    intro n
    rw [List.getElem?_take]
    by_cases hn : n < msg.length
    · rw [if_pos hn]
      have hIlen : (interp samples).length = samples.length := by
        cases hs : samples with
        | nil =>
          rw [hs] at hslen
          simp only [List.length_nil] at hslen
          exfalso
          rw [← hlen] at hn
          have hclpos : 0 < cl := by omega
          have := Nat.le_mul_of_pos_right indices.length hclpos
          omega
        | cons a rest =>
          rw [interp, length_interpAux (a :: rest) [] (by simp)]
          simp
      have hnle : n < (interp samples).length := by
        rw [hIlen]
        omega
      rw [List.getElem?_eq_getElem hnle, List.getElem?_eq_getElem hn]
      rw [show (interp samples)[n] = (interp samples).getD n 0 from
          (List.getD_eq_getElem _ 0 hnle).symm,
        show msg[n] = msg.getD n 0 from (List.getD_eq_getElem _ 0 hn).symm,
        hcoeff n]
    · rw [if_neg hn]
      exact (List.getElem?_eq_none (by omega)).symm
  have hsplit : interp samples = msg ++ (interp samples).drop msg.length := by
    conv_lhs => rw [← List.take_append_drop msg.length (interp samples)]
    rw [htake]
  rw [hsplit, List.map_append, List.flatten_append]
  have hflat : ((msg.map (fun x => natToBytesLE 31 x.val)).flatten) = padTo31 data := by
    rw [hmsg]
    exact flatten_toFrArray_bytes p data hbytes hsmall
  rw [hflat]
  rw [List.take_append_of_le_length (by
    rw [padTo31_length]
    exact le_31_blobLength data)]
  unfold padTo31
  rw [List.take_append_of_le_length (le_refl data.length), List.take_length]

/-- Witness for C9 at a concrete instance: one data byte, one chunk of
length one, over the prime field of order 101. -/
theorem C9_encode_decode_roundtrip_witness :
    Decode 101 ([0].map (fun i => (Encode 101 [7] ⟨1, 1⟩).getD i [])) [0] ⟨1, 1⟩ 1 = [7] := by
  haveI : Fact (Nat.Prime 101) := ⟨by norm_num⟩
  exact C9_encode_decode_roundtrip 101 [7] ⟨1, 1⟩ [0]
    (by decide) (by decide) (by decide) (by decide) (by decide) (by decide) (by decide)

end EigenDA
